import Mathlib

/-!
Verification of the audio-extraction / Kannada-transcription pipeline.

The development shallowly embeds the two Python modules:

* `audiotranslate` — whole-file and chunked speech transcription
  (`transcribe_kannada_audio`, `transcribe_long_kannada_audio`);
* `ytb` — remote format listing and best-audio-format selection
  (`get_available_formats`, the sort-and-pick in `extract_audio_from_stream`).

Durations and bitrates are modelled as rationals, chunk sizes as naturals
(Python `range` requires an integer step), recognition backends as pure
functions from a chunk to a three-way outcome, and Python exceptions as
`Option`/`Except` results.
-/

namespace YtbKannada

/-! ## Chunked transcription (audiotranslate.transcribe_long_kannada_audio) -/

/-- Outcome of one call to the recognition backend
(`recognizer.recognize_google`): returned text, `sr.UnknownValueError`
("cannot decode speech"), or `sr.RequestError` (quota / network failure). -/
inductive RecogOutcome where
  | ok (text : String)
  | unintelligible
  | requestError (detail : String)
deriving DecidableEq

/-- Number of loop iterations of `range(0, int(audio_duration), chunk_duration)`:
the number of multiples of `C` strictly below `int(D)`.  Python's `int()`
truncates toward zero; durations are nonnegative, so this is the floor. -/
def numChunks (D : ℚ) (C : ℕ) : ℕ := (⌊D⌋.toNat + C - 1) / C

/-- Start offsets produced by `range(0, int(audio_duration), chunk_duration)`:
`0, C, 2C, …` while strictly below `int(D)`. -/
def chunkStarts (D : ℚ) (C : ℕ) : List ℕ := (List.range (numChunks D C)).map (· * C)

/-- The chunk list of `transcribe_long_kannada_audio`: each start offset `i`
paired with the recorded duration `min(chunk_duration, audio_duration - i)`. -/
def chunks (D : ℚ) (C : ℕ) : List (ℕ × ℚ) :=
  (chunkStarts D C).map (fun i => (i, min (C : ℚ) (D - (i : ℚ))))

/-- Sentinel appended on `sr.UnknownValueError` — "[unclear]" in Kannada. -/
def unclearSentinel : String := "[ಅಸ್ಪಷ್ಟ]"

/-- Sentinel appended on `sr.RequestError` — "[error]" in Kannada. -/
def errorSentinel : String := "[ದೋಷ]"

/-- Text appended to `full_text` for one chunk: the recognized text on
success, the fixed sentinel on either recognition failure (the inner
`try/except` of the chunk loop). -/
def chunkText (r : RecogOutcome) : String :=
  match r with
  | .ok t => t
  | .unintelligible => unclearSentinel
  | .requestError _ => errorSentinel

/-- The chunk loop: iterate the chunk list in order, appending each chunk's
text (or sentinel) to the accumulator `full_text`. -/
def transcribeChunks (backend : ℕ → ℚ → RecogOutcome) :
    List (ℕ × ℚ) → List String → List String
  | [], acc => acc
  | c :: rest, acc => transcribeChunks backend rest (acc ++ [chunkText (backend c.1 c.2)])

/-- Join of a list of `List Char` segments with a single `' '` between
consecutive segments (the character-level content of `" ".join`). -/
def joinSpaceL : List (List Char) → List Char
  | [] => []
  | [x] => x
  | x :: xs => x ++ ' ' :: joinSpaceL xs

/-- Python `" ".join(full_text)`, built from the character-level join. -/
def joinSpace (l : List String) : String := String.mk (joinSpaceL (l.map String.data))

/-- Splitting accumulator: `cur` holds the (reversed) characters of the
segment being read; a `' '` closes the current segment, the end of input
closes the last one. -/
def splitSpaceAux : List Char → List Char → List (List Char)
  | [], cur => [cur.reverse]
  | c :: cs, cur =>
    if c = ' ' then cur.reverse :: splitSpaceAux cs [] else splitSpaceAux cs (c :: cur)

/-- Modelled from the spec: re-splitting a transcript on the single-space
join delimiter (Python `s.split(" ")`); only the join appears in the
source, the split is the round-trip operation of the spec's testable
property.  Like Python, `"".split(" ") = [""]` and adjacent delimiters
yield empty segments. -/
def splitSpace (s : String) : List (List Char) := splitSpaceAux s.data []

/-- Chunked transcription `transcribe_long_kannada_audio`.  `openResult`
models opening/seeking the source file (`sr.AudioFile`): an exception there
is caught by the outer `try/except`, which returns `None`; otherwise the
chunk loop runs to completion and the space-joined text is returned. -/
def transcribe_long_kannada_audio (openResult : Except String Unit)
    (backend : ℕ → ℚ → RecogOutcome) (D : ℚ) (C : ℕ) : Option String :=
  match openResult with
  | .error _ => none
  | .ok _ => some (joinSpace (transcribeChunks backend (chunks D C) []))

/-! ## Whole-file transcription (audiotranslate.transcribe_kannada_audio) -/

/-- Whole-file transcription `transcribe_kannada_audio`, as a function of
the single backend call's outcome: the text on success, `None` on
`sr.UnknownValueError` and on `sr.RequestError` (both handlers print and
`return None`). -/
def transcribe_kannada_audio (r : RecogOutcome) : Option String :=
  match r with
  | .ok t => some t
  | .unintelligible => none
  | .requestError _ => none

/-! ## Format selection (ytb.get_available_formats / extract_audio_from_stream) -/

/-- One entry of the format list returned by the remote prober, restricted
to the fields the selection logic reads.  `vcodec` / `acodec` are `none`
when the key is absent or JSON `null` (Python `f.get` then yields `None`,
which compares unequal to the string `"none"`); `abr` is the average audio
bitrate, `none` when absent or `null` (the spec's data model gives
`bitrate : optional number`); `format_id` is the opaque token handed back
to the downloader. -/
structure FormatEntry where
  vcodec : Option String
  acodec : Option String
  abr : Option ℚ
  format_id : String
deriving DecidableEq

/-- Predicate of the first filter, `f.get('vcodec') == 'none'`: the entry
is audio-only (video codec explicitly `"none"`). -/
def isAudioOnly (f : FormatEntry) : Bool := f.vcodec == some "none"

/-- Predicate of the fallback filter, `f.get('acodec') != 'none'`: some
audio codec is present (not explicitly `"none"`; a missing/`null` codec
passes, as in Python `None != 'none'`). -/
def hasAudioCodec (f : FormatEntry) : Bool := f.acodec != some "none"

/-- Filtering of `get_available_formats`: keep the audio-only entries;
when there are none, fall back to every entry with an audio codec. -/
def get_available_formats (formats : List FormatEntry) : List FormatEntry :=
  let audio_formats := formats.filter isAudioOnly
  if audio_formats.isEmpty then formats.filter hasAudioCodec else audio_formats

/-- Sort key `float(x.get('abr', 0) or 0)` restricted to the spec's
`bitrate : optional number` data model: a missing / `null` bitrate falls to
the `get` default resp. the `or 0` (both give `0`); otherwise the numeric
value itself (`float` of a number is the number; `0 or 0` is `0`).  On this
domain the key is total; `bitrateKeyE` below models the same expression at
the raw dictionary level, where the `float()` call can also raise. -/
def bitrateKey (f : FormatEntry) : ℚ :=
  match f.abr with
  | none => 0
  | some q => if q = 0 then 0 else q

/-- Stable insertion of `x` into a descending-sorted list: `x` passes the
strictly greater elements and stops in front of the first element whose
key is `≤` its own, so an earlier-listed element keeps priority on ties. -/
def insertDescBy {α : Type} (key : α → ℚ) (x : α) : List α → List α
  | [] => [x]
  | y :: ys => if key y > key x then y :: insertDescBy key x ys else x :: y :: ys

/-- Stable descending insertion sort: the model of Python
`sorted(..., key=..., reverse=True)` (Timsort is stable, and `reverse=True`
reverses the key comparison while preserving the order of equal keys). -/
def sortDescBy {α : Type} (key : α → ℚ) : List α → List α
  | [] => []
  | x :: xs => insertDescBy key x (sortDescBy key xs)

/-- Best-format selection of `extract_audio_from_stream` (lines 100–113 of
ytb.py): run the `get_available_formats` filter, return `None` when it is
empty (`"No suitable audio formats found!"` — the spec's `NoSuitableFormat`),
otherwise `sorted(audio_formats, key=..., reverse=True)[0]`. -/
def select_best_audio (formats : List FormatEntry) : Option FormatEntry :=
  let af := get_available_formats formats
  if af.isEmpty then none
  else (sortDescBy bitrateKey af).head?

/-! ## Format selection at the raw dictionary level

`FormatEntry` keeps the bitrate in the spec's `bitrate : optional number`
data model, which is enough for the filter and max-bitrate claims but
erases the `float()` call inside the sort key.  The raw model below keeps
the `abr` field as it sits in the format dict — possibly a string — so the
`float()` conversion and its uncaught `ValueError` are part of the model:
the `sorted` call sits before the `try` block of
`extract_audio_from_stream`, so a key-computation exception propagates out
of the function. -/

/-- Raw value found under the `abr` key of a format dict: the key may be
absent, JSON `null`, a number, or a string. -/
inductive AbrField where
  | absent
  | null
  | num (q : ℚ)
  | str (s : String)
deriving DecidableEq

/-- Format entry at the raw dictionary level: like `FormatEntry`, but with
the bitrate field as found in the dict rather than as an optional number. -/
structure RawFormatEntry where
  vcodec : Option String
  acodec : Option String
  abr : AbrField
  format_id : String
deriving DecidableEq

/-- Audio-only filter on raw entries (`f.get('vcodec') == 'none'`). -/
def isAudioOnlyRaw (f : RawFormatEntry) : Bool := f.vcodec == some "none"

/-- Fallback filter on raw entries (`f.get('acodec') != 'none'`). -/
def hasAudioCodecRaw (f : RawFormatEntry) : Bool := f.acodec != some "none"

/-- The `get_available_formats` filtering at the raw dictionary level. -/
def get_available_formats_raw (formats : List RawFormatEntry) : List RawFormatEntry :=
  let audio_formats := formats.filter isAudioOnlyRaw
  if audio_formats.isEmpty then formats.filter hasAudioCodecRaw else audio_formats

/-- Value of a most-significant-first digit run. -/
def digitsVal (cs : List Char) : ℕ :=
  cs.foldl (fun acc c => 10 * acc + (c.toNat - Char.toNat '0')) 0

/-- Nonempty all-digit run, or failure. -/
def parseNatDigits (cs : List Char) : Option ℕ :=
  if !cs.isEmpty && cs.all Char.isDigit then some (digitsVal cs) else none

/-- Exponent part after `e`/`E`: optional sign, then digits. -/
def parseExpPart : List Char → Option ℤ
  | '+' :: ds => (parseNatDigits ds).map Int.ofNat
  | '-' :: ds => (parseNatDigits ds).map (fun n => -(n : ℤ))
  | ds => (parseNatDigits ds).map Int.ofNat

/-- Unsigned body of a decimal literal: digits, an optional point with
fraction digits (at least one digit on one side of the point), and an
optional exponent. -/
def parseBody (cs : List Char) : Option ℚ :=
  let p := cs.span Char.isDigit
  match p.2 with
  | [] => if p.1.isEmpty then none else some (digitsVal p.1 : ℚ)
  | '.' :: rest2 =>
    let q := rest2.span Char.isDigit
    if p.1.isEmpty && q.1.isEmpty then none
    else
      let m : ℚ := (digitsVal p.1 : ℚ) + (digitsVal q.1 : ℚ) / (10 : ℚ) ^ q.1.length
      match q.2 with
      | [] => some m
      | 'e' :: es => (parseExpPart es).map (fun z => m * (10 : ℚ) ^ z)
      | 'E' :: es => (parseExpPart es).map (fun z => m * (10 : ℚ) ^ z)
      | _ => none
  | 'e' :: es =>
    if p.1.isEmpty then none
    else (parseExpPart es).map (fun z => (digitsVal p.1 : ℚ) * (10 : ℚ) ^ z)
  | 'E' :: es =>
    if p.1.isEmpty then none
    else (parseExpPart es).map (fun z => (digitsVal p.1 : ℚ) * (10 : ℚ) ^ z)
  | _ => none

/-- Python `float(s)` on the grammar of finite decimal literals with
optional sign, fraction, and exponent; `none` models the `ValueError`
raised on anything else.  Strings outside this grammar (`inf`, `nan`,
whitespace-padded or underscored literals) are conservatively treated as
unparseable — the claims only need that numeric strings parse to their
value and that non-numeric ones raise. -/
def parseFloat (s : String) : Option ℚ :=
  match s.data with
  | '+' :: cs => parseBody cs
  | '-' :: cs => (parseBody cs).map Neg.neg
  | cs => parseBody cs

/-- Sort key `float(x.get('abr', 0) or 0)` at the raw level: an absent key
falls to the `get` default `0`; `None`, `0`, and `""` are falsy, so `or 0`
turns each of them into `0` (and `float(0) = 0`); any other number passes
through `float` unchanged; a nonempty string goes to `float(s)`, which
raises `ValueError` when the string is not a numeric literal — modelled as
`Except.error "ValueError"`. -/
def bitrateKeyE (f : RawFormatEntry) : Except String ℚ :=
  match f.abr with
  | .absent => .ok 0
  | .null => .ok 0
  | .num q => .ok (if q = 0 then 0 else q)
  | .str s =>
    if s = "" then .ok 0
    else
      match parseFloat s with
      | some q => .ok q
      | none => .error "ValueError"

/-- Key-computation pass of `sorted(audio_formats, key=..., reverse=True)`:
the key callable runs once per element in list order, and its first
uncaught exception aborts the whole call (there is no enclosing `try`
around the `sorted` at ytb.py:107). -/
def decorateKeys : List RawFormatEntry → Except String (List (RawFormatEntry × ℚ))
  | [] => .ok []
  | f :: fs =>
    match bitrateKeyE f with
    | .error e => .error e
    | .ok q =>
      match decorateKeys fs with
      | .error e => .error e
      | .ok ps => .ok ((f, q) :: ps)

/-- Best-format selection at the raw dictionary level: the
`get_available_formats` filter, the early `return None` on an empty list,
then the stable descending sort on the computed keys and `[0]`; a
key-computation exception propagates uncaught to the caller. -/
def select_best_audio_raw (formats : List RawFormatEntry) :
    Except String (Option RawFormatEntry) :=
  let af := get_available_formats_raw formats
  if af.isEmpty then .ok none
  else
    match decorateKeys af with
    | .error e => .error e
    | .ok ps => .ok ((sortDescBy (fun p => p.2) ps).head?.map Prod.fst)

/-! ## Basic facts about the chunk list -/

lemma length_chunks (D : ℚ) (C : ℕ) : (chunks D C).length = numChunks D C := by
  simp [chunks, chunkStarts]

lemma lt_numChunks_iff (D : ℚ) {C : ℕ} (hC : 0 < C) {k : ℕ} :
    k < numChunks D C ↔ k * C < ⌊D⌋.toNat := by
  unfold numChunks
  rw [Nat.lt_iff_add_one_le, Nat.le_div_iff_mul_le hC, Nat.succ_mul]
  omega

lemma getElem_chunks {D : ℚ} {C k : ℕ} (hk : k < (chunks D C).length) :
    (chunks D C)[k] = (k * C, min (C : ℚ) (D - ((k * C : ℕ) : ℚ))) := by
  simp [chunks, chunkStarts]

lemma floor_toNat_le {D : ℚ} (hD : 0 ≤ D) : ((⌊D⌋.toNat : ℕ) : ℚ) ≤ D := by
  have h1 : (0 : ℤ) ≤ ⌊D⌋ := Int.floor_nonneg.mpr hD
  have h2 : ((⌊D⌋.toNat : ℕ) : ℚ) = ((⌊D⌋ : ℤ) : ℚ) := by
    exact_mod_cast congrArg (fun z : ℤ => (z : ℚ)) (Int.toNat_of_nonneg h1)
  rw [h2]
  exact Int.floor_le D

lemma chunk_dur_eq_of_not_last {D : ℚ} {C k : ℕ} (hD : 0 ≤ D) (hC : 0 < C)
    (h : k + 1 < numChunks D C) : min (C : ℚ) (D - ((k * C : ℕ) : ℚ)) = (C : ℚ) := by
  have h1 : (k + 1) * C < ⌊D⌋.toNat := (lt_numChunks_iff D hC).mp h
  rw [Nat.succ_mul] at h1
  have h2 : ((k * C + C : ℕ) : ℚ) ≤ ((⌊D⌋.toNat : ℕ) : ℚ) := by
    exact_mod_cast Nat.le_of_lt h1
  have h3 := floor_toNat_le hD
  have : (C : ℚ) ≤ D - ((k * C : ℕ) : ℚ) := by push_cast at h2 ⊢; linarith
  exact min_eq_left this

lemma chunk_dur_pos {D : ℚ} {C k : ℕ} (hD : 0 ≤ D) (hC : 0 < C)
    (h : k < numChunks D C) : 0 < min (C : ℚ) (D - ((k * C : ℕ) : ℚ)) := by
  have h1 : k * C < ⌊D⌋.toNat := (lt_numChunks_iff D hC).mp h
  have h2 : ((k * C + 1 : ℕ) : ℚ) ≤ ((⌊D⌋.toNat : ℕ) : ℚ) := by exact_mod_cast h1
  have h3 := floor_toNat_le hD
  have hcq : (0 : ℚ) < (C : ℚ) := by exact_mod_cast hC
  have : 0 < D - ((k * C : ℕ) : ℚ) := by push_cast at h2 ⊢; linarith
  exact lt_min hcq this

/-! ## Claims about chunk geometry -/

/-- C1 (counterexample): at duration `D = 1/2`, chunk size `C = 30`, the
loop `range(0, int(D), C)` runs zero times, so the transcriber produces `0`
chunks, not `ceil(D/C) = 1` as the claim states. -/
theorem chunk_count_not_ceil :
    (chunks ((1 : ℚ)/2) 30).length ≠ (⌈((1 : ℚ)/2) / 30⌉).toNat := by
  have h1 : (chunks ((1 : ℚ)/2) 30).length = 0 := by
    rw [length_chunks]
    unfold numChunks
    norm_num
  have h2 : (⌈((1 : ℚ)/2) / 30⌉ : ℤ) = 1 := by
    rw [Int.ceil_eq_iff]
    norm_num
  rw [h1, h2]
  decide

/-- C1 (amended): for `D > 0`, `C > 0` the loop iterates start offsets
`0, C, 2C, …` while strictly below `int(D) = ⌊D⌋` (not below `D`),
producing exactly `⌈⌊D⌋/C⌉ = (⌊D⌋ + C - 1) / C` chunks; chunk `k` starts at
`k*C` with actual duration `min(C, D - k*C)`; every chunk but the last has
duration exactly `C` (so chunks are contiguous and non-overlapping), all
durations are positive, and together the chunks cover `[0, min(D, C*count))`
— the fractional tail `[⌊D⌋, D)` beyond the last retained multiple of `C`
is dropped when `C` divides into `⌊D⌋` evenly short of `D`. -/
theorem chunking_geometry (D : ℚ) (C : ℕ) (hD : 0 < D) (hC : 0 < C) :
    (chunks D C).length = (⌊D⌋.toNat + C - 1) / C ∧
    (∀ k, ∀ hk : k < (chunks D C).length,
        (chunks D C).get ⟨k, hk⟩ = (k * C, min (C : ℚ) (D - ((k * C : ℕ) : ℚ)))) ∧
    (∀ k, k + 1 < (chunks D C).length → min (C : ℚ) (D - ((k * C : ℕ) : ℚ)) = (C : ℚ)) ∧
    (∀ k, ∀ hk : k < (chunks D C).length, 0 < ((chunks D C).get ⟨k, hk⟩).2) ∧
    (0 < (chunks D C).length →
      ((((chunks D C).length - 1) * C : ℕ) : ℚ) +
          min (C : ℚ) (D - ((((chunks D C).length - 1) * C : ℕ) : ℚ)) =
        min (((chunks D C).length * C : ℕ) : ℚ) D) := by
  have hD' : 0 ≤ D := le_of_lt hD
  refine ⟨by rw [length_chunks]; rfl, ?_, ?_, ?_, ?_⟩
  · intro k hk
    simpa using getElem_chunks hk
  · intro k hk
    rw [length_chunks] at hk
    exact chunk_dur_eq_of_not_last hD' hC hk
  · intro k hk
    have hk' := hk
    rw [length_chunks] at hk'
    have := getElem_chunks hk
    rw [List.get_eq_getElem, this]
    exact chunk_dur_pos hD' hC hk'
  · intro hlen
    rw [length_chunks] at hlen ⊢
    set m := numChunks D C with hm
    have hsplit : ((m - 1) * C : ℕ) + C = m * C := by
      have : m - 1 + 1 = m := Nat.succ_pred_eq_of_pos hlen
      calc (m - 1) * C + C = (m - 1 + 1) * C := by ring
        _ = m * C := by rw [this]
    rcases le_or_lt (C : ℚ) (D - (((m - 1) * C : ℕ) : ℚ)) with hle | hlt
    · rw [min_eq_left hle]
      have : min (((m * C : ℕ) : ℚ)) D = ((m * C : ℕ) : ℚ) := by
        apply min_eq_left
        have : ((m * C : ℕ) : ℚ) = (((m - 1) * C : ℕ) : ℚ) + (C : ℚ) := by
          push_cast [← hsplit]; ring
        rw [this]; linarith
      rw [this]
      push_cast [← hsplit]; ring
    · rw [min_eq_right (le_of_lt hlt)]
      have : min (((m * C : ℕ) : ℚ)) D = D := by
        apply min_eq_right
        have : ((m * C : ℕ) : ℚ) = (((m - 1) * C : ℕ) : ℚ) + (C : ℚ) := by
          push_cast [← hsplit]; ring
        rw [this]; linarith
      rw [this]; ring

/-- C1 witness: at `D = 65`, `C = 30` the geometry theorem applies and the
count evaluates to `3` chunks (`⌈⌊65⌋/30⌉ = 3`). -/
theorem chunking_geometry_witness :
    (chunks (65 : ℚ) 30).length = (⌊(65 : ℚ)⌋.toNat + 30 - 1) / 30 ∧
      (chunks (65 : ℚ) 30).length = 3 := by
  constructor
  · exact (chunking_geometry 65 30 (by norm_num) (by norm_num)).1
  · rw [length_chunks]
    unfold numChunks
    norm_num
    decide

/-- C10: for a duration strictly below one second the loop bound
`int(audio_duration)` is `0`, so no chunk is ever formed (zero backend
calls) and the function returns the empty string joined from an empty list
— a successful `Some ""` result, not a failure `None`. -/
theorem short_duration_empty_transcript (backend : ℕ → ℚ → RecogOutcome)
    (D : ℚ) (C : ℕ) (h0 : 0 ≤ D) (h1 : D < 1) (hC : 0 < C) :
    chunks D C = [] ∧
      transcribe_long_kannada_audio (Except.ok ()) backend D C = some "" := by
  have hfl : ⌊D⌋ = 0 := by
    rw [Int.floor_eq_zero_iff]
    exact Set.mem_Ico.mpr ⟨h0, by exact_mod_cast h1⟩
  have hnum : numChunks D C = 0 := by
    unfold numChunks
    rw [hfl]
    simp only [Int.toNat_zero, Nat.zero_add]
    exact Nat.div_eq_of_lt (by omega)
  have hch : chunks D C = [] := by
    unfold chunks chunkStarts
    rw [hnum]
    rfl
  refine ⟨hch, ?_⟩
  unfold transcribe_long_kannada_audio
  rw [hch]
  rfl

/-- C10 witness: the theorem applied at `D = 1/2`, `C = 30`. -/
theorem short_duration_empty_transcript_witness :
    chunks ((1 : ℚ)/2) 30 = [] ∧
      transcribe_long_kannada_audio (Except.ok ()) (fun _ _ => .unintelligible)
        ((1 : ℚ)/2) 30 = some "" :=
  short_duration_empty_transcript (fun _ _ => .unintelligible) ((1 : ℚ)/2) 30
    (by norm_num) (by norm_num) (by norm_num)

/-! ## The chunk loop as a map -/

lemma transcribeChunks_eq_map (backend : ℕ → ℚ → RecogOutcome) :
    ∀ (cs : List (ℕ × ℚ)) (acc : List String),
      transcribeChunks backend cs acc = acc ++ cs.map (fun c => chunkText (backend c.1 c.2)) := by
  intro cs
  induction cs with
  | nil => intro acc; simp [transcribeChunks]
  | cons c rest ih =>
    intro acc
    rw [transcribeChunks, ih]
    simp

/-- C2: on the successful-open path, chunked transcription is the ordered
space-join of one output per chunk — the recognized text on success, the
fixed `"[ಅಸ್ಪಷ್ಟ]"` sentinel when the backend cannot decode the chunk, the
distinct fixed `"[ದೋಷ]"` sentinel when the backend call errors — so both
failure kinds are absorbed per chunk (the loop always reaches every chunk)
and never abort the run. -/
theorem chunk_failure_policy (backend : ℕ → ℚ → RecogOutcome) (D : ℚ) (C : ℕ) :
    transcribe_long_kannada_audio (Except.ok ()) backend D C =
      some (joinSpace ((chunks D C).map (fun c => chunkText (backend c.1 c.2)))) ∧
    ((chunks D C).map (fun c => chunkText (backend c.1 c.2))).length = (chunks D C).length ∧
    (∀ c : ℕ × ℚ, backend c.1 c.2 = .unintelligible →
      chunkText (backend c.1 c.2) = unclearSentinel) ∧
    (∀ (c : ℕ × ℚ) (d : String), backend c.1 c.2 = .requestError d →
      chunkText (backend c.1 c.2) = errorSentinel) ∧
    unclearSentinel ≠ errorSentinel := by
  refine ⟨?_, List.length_map _ _, ?_, ?_, by decide⟩
  · show some _ = some _
    rw [transcribeChunks_eq_map backend (chunks D C) []]
    rw [List.nil_append]
  · intro c h
    rw [h]
    rfl
  · intro c d h
    rw [h]
    rfl

/-- C2 witness: two chunks (`D = 35`, `C = 30`), a backend that errors
structurally on the first chunk and is unintelligible on the second: the
result is the two sentinels joined in temporal order. -/
theorem chunk_failure_policy_witness :
    transcribe_long_kannada_audio (Except.ok ())
        (fun i _ => if i = 0 then RecogOutcome.requestError "quota" else .unintelligible)
        35 30 = some "[ದೋಷ] [ಅಸ್ಪಷ್ಟ]" := by
  have h := (chunk_failure_policy
    (fun i _ => if i = 0 then RecogOutcome.requestError "quota" else .unintelligible) 35 30).1
  rw [h]
  decide

/-- C8: whole-file transcription reports an unintelligible recording and a
structural backend failure identically as "no transcript" (`None`); it
raises nothing, and only a successful recognition yields a transcript. -/
theorem whole_file_failure_reported (r : RecogOutcome) :
    transcribe_kannada_audio r = none ↔
      (r = .unintelligible ∨ ∃ d, r = .requestError d) := by
  cases r <;> simp [transcribe_kannada_audio]

/-- C8 witness: the theorem applied at the unintelligible outcome. -/
theorem whole_file_failure_reported_witness :
    transcribe_kannada_audio .unintelligible = none :=
  (whole_file_failure_reported .unintelligible).mpr (Or.inl rfl)

/-- C9: the chunked run fails as a whole exactly when opening/seeking the
source raises (the outer `try/except` returning `None`); on a readable
source the run always produces a transcript, whatever the per-chunk
recognition outcomes are — per-chunk failures are absorbed as sentinels,
never as a whole-run failure. -/
theorem structural_failure_aborts (openResult : Except String Unit)
    (backend : ℕ → ℚ → RecogOutcome) (D : ℚ) (C : ℕ) :
    (∀ e, openResult = .error e →
      transcribe_long_kannada_audio openResult backend D C = none) ∧
    (openResult = .ok () →
      ∃ t, transcribe_long_kannada_audio openResult backend D C = some t) ∧
    (transcribe_long_kannada_audio openResult backend D C = none ↔
      ∃ e, openResult = .error e) := by
  cases openResult with
  | error e =>
    refine ⟨fun _ _ => rfl, ?_, ?_⟩
    · intro h
      simp at h
    · simp [transcribe_long_kannada_audio]
  | ok u =>
    cases u
    refine ⟨?_, fun _ => ⟨_, rfl⟩, ?_⟩
    · intro e h
      simp at h
    · simp [transcribe_long_kannada_audio]

/-- C9 witness: an unreadable source (open raises) yields the whole-run
failure `None`, and the same backend on a readable source yields a
transcript. -/
theorem structural_failure_aborts_witness :
    transcribe_long_kannada_audio (Except.error "unreadable")
        (fun _ _ => RecogOutcome.ok "x") 35 30 = none ∧
      ∃ t, transcribe_long_kannada_audio (Except.ok ())
        (fun _ _ => RecogOutcome.ok "x") 35 30 = some t :=
  ⟨(structural_failure_aborts (Except.error "unreadable")
      (fun _ _ => RecogOutcome.ok "x") 35 30).1 "unreadable" rfl,
   (structural_failure_aborts (Except.ok ())
      (fun _ _ => RecogOutcome.ok "x") 35 30).2.1 rfl⟩

/-! ## Join/split round trip -/

lemma splitSpaceAux_no_space : ∀ (seg cur : List Char), ' ' ∉ seg →
    splitSpaceAux seg cur = [cur.reverse ++ seg] := by
  intro seg
  induction seg with
  | nil => intro cur _; simp [splitSpaceAux]
  | cons c cs ih =>
    intro cur h
    have hc : ¬c = ' ' := fun hc => h (by simp [hc])
    have hcs : ' ' ∉ cs := fun hm => h (List.mem_cons_of_mem _ hm)
    rw [splitSpaceAux, if_neg hc, ih (c :: cur) hcs]
    simp

lemma splitSpaceAux_seg_space : ∀ (seg cur rest : List Char), ' ' ∉ seg →
    splitSpaceAux (seg ++ ' ' :: rest) cur =
      (cur.reverse ++ seg) :: splitSpaceAux rest [] := by
  intro seg
  induction seg with
  | nil => intro cur rest _; simp [splitSpaceAux]
  | cons c cs ih =>
    intro cur rest h
    have hc : ¬c = ' ' := fun hc => h (by simp [hc])
    have hcs : ' ' ∉ cs := fun hm => h (List.mem_cons_of_mem _ hm)
    rw [List.cons_append, splitSpaceAux, if_neg hc, ih (c :: cur) rest hcs]
    simp

lemma splitSpaceAux_joinSpaceL : ∀ ll : List (List Char), ll ≠ [] →
    (∀ seg ∈ ll, ' ' ∉ seg) → splitSpaceAux (joinSpaceL ll) [] = ll := by
  intro ll
  induction ll with
  | nil => intro h _; exact absurd rfl h
  | cons x xs ih =>
    intro _ hseg
    cases xs with
    | nil =>
      rw [joinSpaceL, splitSpaceAux_no_space x [] (hseg x (by simp))]
      rfl
    | cons y ys =>
      have hx : ' ' ∉ x := hseg x (by simp)
      have hrest : ∀ seg ∈ y :: ys, ' ' ∉ seg :=
        fun seg hm => hseg seg (List.mem_cons_of_mem _ hm)
      rw [joinSpaceL, splitSpaceAux_seg_space x [] (joinSpaceL (y :: ys)) hx,
        ih (List.cons_ne_nil y ys) hrest]
      · rfl
      · exact List.cons_ne_nil y ys

/-- C7 (counterexample): one chunk (`D = C = 30`) whose recognized text
itself contains a space: the joined transcript `"a b"` re-splits into two
segments, not one segment per chunk. -/
theorem split_roundtrip_cex :
    (splitSpace (joinSpace (transcribeChunks (fun _ _ => RecogOutcome.ok "a b")
        (chunks (30 : ℚ) 30) []))).length ≠ (chunks (30 : ℚ) 30).length := by
  decide

/-- C7 (amended): when there is at least one chunk and no per-chunk output
(success text or sentinel) contains the space delimiter, re-splitting the
joined transcript on the delimiter yields exactly one segment per chunk.
Without those side conditions the count is not preserved: a success text
containing a space inflates it, and an empty chunk list joins to `""`,
which splits into one (empty) segment. -/
theorem split_roundtrip (backend : ℕ → ℚ → RecogOutcome) (D : ℚ) (C : ℕ)
    (hne : chunks D C ≠ [])
    (hns : ∀ c ∈ chunks D C, ' ' ∉ (chunkText (backend c.1 c.2)).data) :
    (splitSpace (joinSpace (transcribeChunks backend (chunks D C) []))).length =
      (chunks D C).length := by
  rw [transcribeChunks_eq_map backend (chunks D C) [], List.nil_append]
  unfold joinSpace splitSpace
  show (splitSpaceAux (joinSpaceL (((chunks D C).map
    (fun c => chunkText (backend c.1 c.2))).map String.data)) []).length = _
  rw [splitSpaceAux_joinSpaceL]
  · simp
  · simp only [ne_eq, List.map_eq_nil_iff]
    exact hne
  · intro seg hm
    rw [List.map_map, List.mem_map] at hm
    obtain ⟨c, hc, hceq⟩ := hm
    rw [← hceq]
    exact hns c hc

/-- C7 witness: two chunks (`D = 35`, `C = 30`), space-free chunk texts:
the split count equals the chunk count, which is 2. -/
theorem split_roundtrip_witness :
    (splitSpace (joinSpace (transcribeChunks (fun _ _ => RecogOutcome.ok "ok")
        (chunks (35 : ℚ) 30) []))).length = (chunks (35 : ℚ) 30).length ∧
      (chunks (35 : ℚ) 30).length = 2 := by
  have hlen : (chunks (35 : ℚ) 30).length = 2 := by
    rw [length_chunks]
    unfold numChunks
    norm_num
    decide
  refine ⟨?_, hlen⟩
  apply split_roundtrip
  · intro h
    rw [h] at hlen
    simp at hlen
  · intro c _
    show ' ' ∉ (chunkText (RecogOutcome.ok "ok")).data
    decide

/-! ## Sorting / selection lemmas -/

section Sorting

variable {α : Type} (key : α → ℚ)

lemma insertDescBy_perm (x : α) : ∀ l : List α, List.Perm (insertDescBy key x l) (x :: l) := by
  intro l
  induction l with
  | nil => simp [insertDescBy]
  | cons y ys ih =>
    rw [insertDescBy]
    split
    · exact (ih.cons y).trans (List.Perm.swap x y ys)
    · exact List.Perm.refl _

lemma sortDescBy_perm : ∀ l : List α, List.Perm (sortDescBy key l) l := by
  intro l
  induction l with
  | nil => exact List.Perm.refl _
  | cons x xs ih =>
    rw [sortDescBy]
    exact (insertDescBy_perm key x (sortDescBy key xs)).trans (ih.cons x)

lemma insertDescBy_sorted (x : α) : ∀ l : List α,
    l.Sorted (fun a b => key b ≤ key a) →
      (insertDescBy key x l).Sorted (fun a b => key b ≤ key a) := by
  intro l
  induction l with
  | nil => intro _; simp [insertDescBy]
  | cons y ys ih =>
    intro h
    rw [List.sorted_cons] at h
    rw [insertDescBy]
    split
    · rename_i hgt
      rw [List.sorted_cons]
      refine ⟨?_, ih h.2⟩
      intro b hb
      rw [(insertDescBy_perm key x ys).mem_iff] at hb
      rcases List.mem_cons.mp hb with hb | hb
      · rw [hb]; exact le_of_lt hgt
      · exact h.1 b hb
    · rename_i hle
      rw [List.sorted_cons]
      refine ⟨?_, List.sorted_cons.mpr h⟩
      intro b hb
      rcases List.mem_cons.mp hb with hb | hb
      · rw [hb]; exact le_of_not_lt hle
      · exact le_trans (h.1 b hb) (le_of_not_lt hle)

lemma sortDescBy_sorted : ∀ l : List α,
    (sortDescBy key l).Sorted (fun a b => key b ≤ key a) := by
  intro l
  induction l with
  | nil => simp [sortDescBy]
  | cons x xs ih =>
    rw [sortDescBy]
    exact insertDescBy_sorted key x _ ih

lemma head?_insertDescBy (x : α) (l : List α) :
    (insertDescBy key x l).head? =
      match l.head? with
      | none => some x
      | some y => if key y > key x then some y else some x := by
  cases l with
  | nil => rfl
  | cons y ys =>
    rw [insertDescBy]
    split
    · rename_i hgt
      simp [hgt]
    · rename_i hle
      simp [hle]

lemma sortDescBy_ne_nil {l : List α} (h : l ≠ []) : sortDescBy key l ≠ [] := by
  intro hs
  apply h
  have := (sortDescBy_perm key l).length_eq
  rw [hs] at this
  exact List.eq_nil_of_length_eq_zero this.symm

lemma head?_sortDescBy_mem {l : List α} {b : α}
    (h : (sortDescBy key l).head? = some b) : b ∈ l := by
  rw [← (sortDescBy_perm key l).mem_iff]
  exact List.mem_of_mem_head? h

lemma head?_sortDescBy_max {l : List α} {b : α}
    (h : (sortDescBy key l).head? = some b) : ∀ f ∈ l, key f ≤ key b := by
  intro f hf
  rw [← (sortDescBy_perm key l).mem_iff] at hf
  rcases hs : sortDescBy key l with _ | ⟨b', rest⟩
  · rw [hs] at hf; cases hf
  · rw [hs] at h hf
    have hb : b' = b := by
      injection h
    have hsort := sortDescBy_sorted key l
    rw [hs, List.sorted_cons] at hsort
    rcases List.mem_cons.mp hf with hf | hf
    · rw [hf, hb]
    · rw [← hb]
      exact hsort.1 f hf

lemma head?_sortDescBy_first : ∀ (l : List α) (b : α),
    (sortDescBy key l).head? = some b →
      ∃ l₁ l₂, l = l₁ ++ b :: l₂ ∧ ∀ f ∈ l₁, key f < key b := by
  intro l
  induction l with
  | nil => intro b h; cases h
  | cons x xs ih =>
    intro b h
    rw [sortDescBy, head?_insertDescBy] at h
    rcases hs : (sortDescBy key xs).head? with _ | y
    · rw [hs] at h
      have h' : some x = some b := h
      have hb : x = b := by injection h'
      exact ⟨[], xs, by rw [hb, List.nil_append], by intro f hf; cases hf⟩
    · rw [hs] at h
      have h' : (if key y > key x then some y else some x) = some b := h
      by_cases hgt : key y > key x
      · rw [if_pos hgt] at h'
        have hb : y = b := by injection h'
        obtain ⟨l₁, l₂, hsplit, hlt⟩ := ih y hs
        refine ⟨x :: l₁, l₂, by rw [List.cons_append, hsplit, hb], ?_⟩
        intro f hf
        rcases List.mem_cons.mp hf with hf | hf
        · rw [hf, ← hb]; exact hgt
        · rw [← hb]; exact hlt f hf
      · rw [if_neg hgt] at h'
        have hb : x = b := by injection h'
        exact ⟨[], xs, by rw [hb, List.nil_append], by intro f hf; cases hf⟩

end Sorting

/-! ## Format-selection claims -/

lemma get_available_formats_pos {l : List FormatEntry} (h : l.filter isAudioOnly ≠ []) :
    get_available_formats l = l.filter isAudioOnly := by
  unfold get_available_formats
  rw [if_neg]
  simp only [List.isEmpty_iff]
  exact h

lemma get_available_formats_fallback {l : List FormatEntry} (h : l.filter isAudioOnly = []) :
    get_available_formats l = l.filter hasAudioCodec := by
  unfold get_available_formats
  rw [if_pos]
  simp only [List.isEmpty_iff]
  exact h

lemma select_best_audio_spec {l : List FormatEntry} (h : get_available_formats l ≠ []) :
    ∃ b, select_best_audio l = some b ∧ b ∈ get_available_formats l ∧
      (∀ f ∈ get_available_formats l, bitrateKey f ≤ bitrateKey b) ∧
      ∃ l₁ l₂, get_available_formats l = l₁ ++ b :: l₂ ∧
        ∀ f ∈ l₁, bitrateKey f < bitrateKey b := by
  have hs : sortDescBy bitrateKey (get_available_formats l) ≠ [] :=
    sortDescBy_ne_nil bitrateKey h
  obtain ⟨b, rest, hcons⟩ := List.exists_cons_of_ne_nil hs
  have hhead : (sortDescBy bitrateKey (get_available_formats l)).head? = some b := by
    rw [hcons]
    rfl
  refine ⟨b, ?_, head?_sortDescBy_mem bitrateKey hhead,
    head?_sortDescBy_max bitrateKey hhead,
    head?_sortDescBy_first bitrateKey (get_available_formats l) b hhead⟩
  unfold select_best_audio
  rw [if_neg]
  · exact hhead
  · simp only [List.isEmpty_iff]
    exact h

/-- C3: when at least one audio-only candidate (video codec explicitly
`"none"`) exists, selection returns a member of the audio-only subset whose
bitrate key is maximal there (missing bitrate keyed `0`), and every
candidate listed before it in that subset has a strictly smaller key — on
ties the first listed candidate wins, the stable tie-break. -/
theorem select_best_audio_audio_only (l : List FormatEntry)
    (h : ∃ f ∈ l, f.vcodec = some "none") :
    ∃ b, select_best_audio l = some b ∧ b ∈ l.filter isAudioOnly ∧
      (∀ f ∈ l.filter isAudioOnly, bitrateKey f ≤ bitrateKey b) ∧
      ∃ l₁ l₂, l.filter isAudioOnly = l₁ ++ b :: l₂ ∧
        ∀ f ∈ l₁, bitrateKey f < bitrateKey b := by
  obtain ⟨f0, hf0, hv⟩ := h
  have hfne : l.filter isAudioOnly ≠ [] := by
    intro hnil
    have hmem : f0 ∈ l.filter isAudioOnly :=
      List.mem_filter.mpr ⟨hf0, by simp [isAudioOnly, hv]⟩
    rw [hnil] at hmem
    cases hmem
  have hga : get_available_formats l = l.filter isAudioOnly := get_available_formats_pos hfne
  have h2 : get_available_formats l ≠ [] := by rw [hga]; exact hfne
  obtain ⟨b, hsel, hmem, hmax, hfirst⟩ := select_best_audio_spec h2
  rw [hga] at hmem hmax hfirst
  exact ⟨b, hsel, hmem, hmax, hfirst⟩

/-- C3 witness: two audio-only candidates tied at bitrate 70 behind a
video candidate at 100: the theorem applies, and concretely the selection
returns the first of the tied pair, ignoring the video entry. -/
theorem select_best_audio_audio_only_witness :
    (∃ b, select_best_audio
        [⟨some "avc1", some "mp4a", some 100, "v"⟩,
         ⟨some "none", some "opus", some 70, "a1"⟩,
         ⟨some "none", some "opus", some 70, "a2"⟩] = some b ∧
      b ∈ ([⟨some "avc1", some "mp4a", some 100, "v"⟩,
         ⟨some "none", some "opus", some 70, "a1"⟩,
         ⟨some "none", some "opus", some 70, "a2"⟩] :
           List FormatEntry).filter isAudioOnly ∧
      (∀ f ∈ ([⟨some "avc1", some "mp4a", some 100, "v"⟩,
         ⟨some "none", some "opus", some 70, "a1"⟩,
         ⟨some "none", some "opus", some 70, "a2"⟩] :
           List FormatEntry).filter isAudioOnly, bitrateKey f ≤ bitrateKey b) ∧
      ∃ l₁ l₂, ([⟨some "avc1", some "mp4a", some 100, "v"⟩,
         ⟨some "none", some "opus", some 70, "a1"⟩,
         ⟨some "none", some "opus", some 70, "a2"⟩] :
           List FormatEntry).filter isAudioOnly = l₁ ++ b :: l₂ ∧
        ∀ f ∈ l₁, bitrateKey f < bitrateKey b) ∧
    select_best_audio
        [⟨some "avc1", some "mp4a", some 100, "v"⟩,
         ⟨some "none", some "opus", some 70, "a1"⟩,
         ⟨some "none", some "opus", some 70, "a2"⟩] =
      some ⟨some "none", some "opus", some 70, "a1"⟩ :=
  ⟨select_best_audio_audio_only _ (by decide), by decide⟩

/-- C4: with no audio-only candidate but some candidate whose audio codec
is not `"none"`, selection falls back to exactly the `acodec != 'none'`
subset and returns a maximal-bitrate member of it (missing bitrate keyed 0). -/
theorem select_best_audio_fallback (l : List FormatEntry)
    (h1 : ∀ f ∈ l, f.vcodec ≠ some "none")
    (h2 : ∃ f ∈ l, f.acodec ≠ some "none") :
    get_available_formats l = l.filter hasAudioCodec ∧
    ∃ b, select_best_audio l = some b ∧ b ∈ l.filter hasAudioCodec ∧
      ∀ f ∈ l.filter hasAudioCodec, bitrateKey f ≤ bitrateKey b := by
  have hfa : l.filter isAudioOnly = [] := by
    rw [List.filter_eq_nil_iff]
    intro f hf
    simp [isAudioOnly]
    exact h1 f hf
  have hga : get_available_formats l = l.filter hasAudioCodec :=
    get_available_formats_fallback hfa
  obtain ⟨f0, hf0, ha⟩ := h2
  have hne : get_available_formats l ≠ [] := by
    rw [hga]
    intro hnil
    have hmem : f0 ∈ l.filter hasAudioCodec :=
      List.mem_filter.mpr ⟨hf0, by simp [hasAudioCodec, ha]⟩
    rw [hnil] at hmem
    cases hmem
  obtain ⟨b, hsel, hmem, hmax, _⟩ := select_best_audio_spec hne
  rw [hga] at hmem hmax
  exact ⟨hga, b, hsel, hmem, hmax⟩

/-- C4 witness: a muxed video+audio entry at 60 kbps and one at 128 kbps,
no audio-only entry: the fallback set is both entries and the 128 kbps one
is selected. -/
theorem select_best_audio_fallback_witness :
    (get_available_formats
        [⟨some "avc1", some "mp4a", some 60, "m1"⟩,
         ⟨some "avc1", some "mp4a", some 128, "m2"⟩] =
      ([⟨some "avc1", some "mp4a", some 60, "m1"⟩,
         ⟨some "avc1", some "mp4a", some 128, "m2"⟩] :
           List FormatEntry).filter hasAudioCodec ∧
      ∃ b, select_best_audio
        [⟨some "avc1", some "mp4a", some 60, "m1"⟩,
         ⟨some "avc1", some "mp4a", some 128, "m2"⟩] = some b ∧
        b ∈ ([⟨some "avc1", some "mp4a", some 60, "m1"⟩,
         ⟨some "avc1", some "mp4a", some 128, "m2"⟩] :
           List FormatEntry).filter hasAudioCodec ∧
        ∀ f ∈ ([⟨some "avc1", some "mp4a", some 60, "m1"⟩,
         ⟨some "avc1", some "mp4a", some 128, "m2"⟩] :
           List FormatEntry).filter hasAudioCodec, bitrateKey f ≤ bitrateKey b) ∧
    select_best_audio
        [⟨some "avc1", some "mp4a", some 60, "m1"⟩,
         ⟨some "avc1", some "mp4a", some 128, "m2"⟩] =
      some ⟨some "avc1", some "mp4a", some 128, "m2"⟩ :=
  ⟨select_best_audio_fallback _ (by decide) (by decide), by decide⟩

/-- C5: on an empty candidate list, or one where no candidate is
audio-only and every audio codec is explicitly `"none"`, both filters come
out empty and selection reports `None` — the `NoSuitableFormat` failure
(the code prints "No suitable audio formats found!" and returns `None` to
the caller, with no retry). -/
theorem select_best_audio_no_format (l : List FormatEntry)
    (h1 : ∀ f ∈ l, f.vcodec ≠ some "none")
    (h2 : ∀ f ∈ l, f.acodec = some "none") :
    select_best_audio l = none := by
  have hfa : l.filter isAudioOnly = [] := by
    rw [List.filter_eq_nil_iff]
    intro f hf
    simp [isAudioOnly]
    exact h1 f hf
  have hfb : l.filter hasAudioCodec = [] := by
    rw [List.filter_eq_nil_iff]
    intro f hf
    simp [hasAudioCodec]
    exact h2 f hf
  unfold select_best_audio
  rw [if_pos]
  rw [get_available_formats_fallback hfa, hfb]
  rfl

/-- C5 witness: the theorem applied to the empty list and to a list whose
single entry has `acodec = "none"` and a non-`"none"` video codec. -/
theorem select_best_audio_no_format_witness :
    select_best_audio [] = none ∧
      select_best_audio [⟨some "vp9", some "none", some 90, "v0"⟩] = none :=
  ⟨select_best_audio_no_format [] (by decide) (by decide),
   select_best_audio_no_format [⟨some "vp9", some "none", some 90, "v0"⟩]
     (by decide) (by decide)⟩

/-! ## Ranking at the raw dictionary level -/

lemma decorateKeys_ok (l : List RawFormatEntry)
    (h : ∀ f ∈ l, ∃ q, bitrateKeyE f = .ok q) :
    ∃ ps, decorateKeys l = .ok ps ∧ ps.map Prod.fst = l := by
  induction l with
  | nil => exact ⟨[], rfl, rfl⟩
  | cons f fs ih =>
    obtain ⟨q, hq⟩ := h f (List.mem_cons_self f fs)
    obtain ⟨ps, hps, hmap⟩ := ih (fun g hg => h g (List.mem_cons_of_mem _ hg))
    refine ⟨(f, q) :: ps, ?_, ?_⟩
    · rw [decorateKeys, hq, hps]
    · simp [hmap]

lemma decorateKeys_error (l : List RawFormatEntry) (f : RawFormatEntry) (e : String)
    (hf : f ∈ l) (he : bitrateKeyE f = .error e) :
    ∃ e', decorateKeys l = .error e' := by
  induction l with
  | nil => cases hf
  | cons g gs ih =>
    rcases List.mem_cons.mp hf with h | h
    · refine ⟨e, ?_⟩
      rw [decorateKeys, ← h, he]
    · cases hk : bitrateKeyE g with
      | error e'' => exact ⟨e'', by rw [decorateKeys, hk]⟩
      | ok q =>
        obtain ⟨e', he'⟩ := ih h
        refine ⟨e', ?_⟩
        rw [decorateKeys, hk, he']

lemma select_best_audio_raw_ok {l : List RawFormatEntry}
    (hne : get_available_formats_raw l ≠ [])
    (hok : ∀ f ∈ get_available_formats_raw l, ∃ q, bitrateKeyE f = .ok q) :
    ∃ b, select_best_audio_raw l = .ok (some b) := by
  obtain ⟨ps, hps, hmap⟩ := decorateKeys_ok _ hok
  have hpsne : ps ≠ [] := by
    intro h0
    apply hne
    rw [← hmap, h0]
    rfl
  have hs : sortDescBy (fun p : RawFormatEntry × ℚ => p.2) ps ≠ [] :=
    sortDescBy_ne_nil _ hpsne
  obtain ⟨b, rest, hcons⟩ := List.exists_cons_of_ne_nil hs
  refine ⟨b.1, ?_⟩
  unfold select_best_audio_raw
  rw [if_neg, hps]
  · show Except.ok ((sortDescBy (fun p : RawFormatEntry × ℚ => p.2) ps).head?.map Prod.fst) =
      Except.ok (some b.1)
    rw [hcons]
    rfl
  · simp only [List.isEmpty_iff]
    exact hne

lemma select_best_audio_raw_error {l : List RawFormatEntry} {f : RawFormatEntry}
    {e : String} (hf : f ∈ get_available_formats_raw l)
    (he : bitrateKeyE f = .error e) :
    ∃ e', select_best_audio_raw l = .error e' := by
  obtain ⟨e', he'⟩ := decorateKeys_error _ f e hf he
  refine ⟨e', ?_⟩
  unfold select_best_audio_raw
  rw [if_neg, he']
  simp only [List.isEmpty_iff]
  exact List.ne_nil_of_mem hf

/-- C6 (counterexample): a single audio-only candidate whose bitrate field
is the non-numeric string `"N/A"`: the key `float(x.get('abr', 0) or 0)`
raises `ValueError`, and since the `sorted` call at ytb.py:107 precedes the
`try` block beginning at line 141 it is uncaught — the selection fails
instead of ranking the candidate at bitrate `0`, so selection is not total
on unparseable bitrates. -/
theorem unparseable_bitrate_crashes :
    select_best_audio_raw
        [⟨some "none", some "opus", AbrField.str "N/A", "bad"⟩] =
      .error "ValueError" := rfl

/-- C6 (amended): ranking is by bitrate key descending over the decorated
candidates — the sort is a permutation (no candidate excluded) whose keys
descend — and a candidate whose bitrate field is absent, `null`, or the
empty string is keyed `0` (lowest rank) while a numeric bitrate keys as its
value; but a candidate whose bitrate is a nonempty non-numeric string is
not keyed `0`: its `float()` raises an uncaught `ValueError` and the whole
selection fails, so selection is total exactly on lists whose surviving
candidates all have key computations that succeed. -/
theorem bitrate_ranking_raw (l : List RawFormatEntry) :
    (∀ f : RawFormatEntry,
      f.abr = .absent ∨ f.abr = .null ∨ f.abr = .str "" → bitrateKeyE f = .ok 0) ∧
    (∀ (f : RawFormatEntry) (q : ℚ), f.abr = .num q → bitrateKeyE f = .ok q) ∧
    (∀ ps : List (RawFormatEntry × ℚ),
      List.Perm (sortDescBy (fun p => p.2) ps) ps ∧
      (sortDescBy (fun p : RawFormatEntry × ℚ => p.2) ps).Sorted
        (fun a b => b.2 ≤ a.2)) ∧
    (get_available_formats_raw l ≠ [] →
      (∀ f ∈ get_available_formats_raw l, ∃ q, bitrateKeyE f = .ok q) →
      ∃ b, select_best_audio_raw l = .ok (some b)) ∧
    (∀ f ∈ get_available_formats_raw l, ∀ e, bitrateKeyE f = .error e →
      ∃ e', select_best_audio_raw l = .error e') := by
  refine ⟨?_, ?_, ?_, fun hne hok => select_best_audio_raw_ok hne hok,
    fun f hf e he => select_best_audio_raw_error hf he⟩
  · intro f hf
    unfold bitrateKeyE
    rcases hf with h | h | h <;> rw [h]
    rfl
  · intro f q hq
    unfold bitrateKeyE
    rw [hq]
    show Except.ok (if q = 0 then 0 else q) = Except.ok q
    by_cases h0 : q = 0
    · rw [if_pos h0, h0]
    · rw [if_neg h0]
  · intro ps
    exact ⟨sortDescBy_perm _ ps, sortDescBy_sorted _ ps⟩

/-- C6 witness: a list with an absent-bitrate entry and a `"128"`-string
entry: the absent one is keyed `0`, a plain numeric field keys as its
value, the selection succeeds on this all-parseable list, and concretely
returns the `"128"` entry. -/
theorem bitrate_ranking_raw_witness :
    bitrateKeyE ⟨some "none", some "opus", AbrField.absent, "nb"⟩ = .ok 0 ∧
    bitrateKeyE ⟨some "none", some "opus", AbrField.num 55, "n55"⟩ = .ok 55 ∧
    (∃ b, select_best_audio_raw
        [⟨some "none", some "opus", AbrField.absent, "nb"⟩,
         ⟨some "none", some "opus", AbrField.str "128", "s128"⟩] = .ok (some b)) ∧
    select_best_audio_raw
        [⟨some "none", some "opus", AbrField.absent, "nb"⟩,
         ⟨some "none", some "opus", AbrField.str "128", "s128"⟩] =
      .ok (some ⟨some "none", some "opus", AbrField.str "128", "s128"⟩) := by
  refine ⟨(bitrate_ranking_raw []).1 _ (Or.inl rfl),
    (bitrate_ranking_raw []).2.1 _ 55 rfl, ?_, ?_⟩
  · apply (bitrate_ranking_raw
      [⟨some "none", some "opus", AbrField.absent, "nb"⟩,
       ⟨some "none", some "opus", AbrField.str "128", "s128"⟩]).2.2.2.1
    · decide
    · have hga : get_available_formats_raw
          [⟨some "none", some "opus", AbrField.absent, "nb"⟩,
           ⟨some "none", some "opus", AbrField.str "128", "s128"⟩] =
          [⟨some "none", some "opus", AbrField.absent, "nb"⟩,
           ⟨some "none", some "opus", AbrField.str "128", "s128"⟩] := by decide
      rw [hga]
      intro f hf
      rcases List.mem_cons.mp hf with h | h
      · exact ⟨_, by rw [h]; rfl⟩
      · rcases List.mem_cons.mp h with h2 | h2
        · exact ⟨_, by rw [h2]; rfl⟩
        · cases h2
  · rfl

end YtbKannada
